import Mathlib

/-!
# A shallow embedding of the `minirag` retrieval core

This file models, in Lean, the core of the `minirag` repository:

* `pkg/minirag/types.go` — the data model (`Chunk`, `EmbeddingData`,
  `SearchResult`, `VectorIndex`);
* `pkg/minirag/search.go` — `CosineSimilarity`, `Search`, `LoadIndex`;
* `pkg/loader/loader.go` — `ChunkDocument` (markdown-heading chunker);
* `pkg/embedder` — `SimpleEmbedder.Embed`;
* `cmd/generate-embeddings/main.go` — the checkpoint/resume pipeline and
  its bounded-concurrency semaphore discipline.

Modelling conventions: Go `float32`/`float64` arithmetic is modelled with
exact arithmetic (`ℝ` where `math.Sqrt` is involved, `ℚ` for the purely
rational `SimpleEmbedder`); Go `int` is modelled by `Int` where a negative
value is meaningful (`topK`, `Dimension`) and by `Nat` for offsets and
counters that are provably nonnegative; Go strings are Lean `String`s,
with byte-level operations expressed through the underlying character
list (`String.data`) and UTF-8 byte sizes (`Char.utf8Size`). The chunker
model reproduces `bufio.Scanner`'s line semantics including its 64 KiB
token limit (`Scan` fails on longer lines and `ChunkDocument` never
checks `scanner.Err()`, silently dropping the rest) and the full
`unicode.IsSpace` character class of `strings.TrimSpace`.
-/

namespace Minirag

/-! ## Data model (`pkg/minirag/types.go`) -/

/-- `Chunk` from `types.go`: a piece of a document with content and metadata. -/
structure Chunk where
  Path : String
  Content : String
  Heading : String
  Offset : Nat
  deriving DecidableEq, Repr, Inhabited

/-- `EmbeddingData` from `types.go`: pre-computed embeddings with their chunks. -/
structure EmbeddingData where
  Chunks : List Chunk
  Embeddings : List (List ℝ)
  ModelInfo : String
  Dimension : Int

/-- `SearchResult` from `types.go`: a single search result with its score. -/
structure SearchResult where
  Chunk : Chunk
  Score : ℝ

/-- `VectorIndex` from `types.go`: the in-memory vector index. -/
structure VectorIndex where
  Chunks : List Chunk
  Embeddings : List (List ℝ)
  Dimension : Int

/-! ## Similarity search (`pkg/minirag/search.go`) -/

/-- Sum of pairwise products: the `dotProduct` accumulator of the loop in
`CosineSimilarity` (`search.go:16-20`), for equal-length vectors. -/
def dotProduct (a b : List ℝ) : ℝ :=
  ((a.zip b).map fun p => p.1 * p.2).sum

/-- Sum of squares: the `normA`/`normB` accumulators of the loop in
`CosineSimilarity` (`search.go:16-20`). -/
def sumSq (a : List ℝ) : ℝ :=
  (a.map fun x => x * x).sum

/-- The Euclidean (L2) norm of a vector, `sqrt` of the sum of squares.
Used to state the specification of `CosineSimilarity`. -/
noncomputable def euclidNorm (a : List ℝ) : ℝ :=
  Real.sqrt (sumSq a)

/-- `CosineSimilarity` from `search.go:10-27`, in exact real arithmetic:
returns `0` on length mismatch, computes the dot product and the two
sums of squares in one loop, returns `0` if either sum of squares is `0`,
and otherwise divides the dot product by the product of the square roots. -/
noncomputable def CosineSimilarity (a b : List ℝ) : ℝ :=
  if a.length ≠ b.length then 0
  else
    let dot := dotProduct a b
    let nA := sumSq a
    let nB := sumSq b
    if nA = 0 ∨ nB = 0 then 0
    else dot / (Real.sqrt nA * Real.sqrt nB)

/-- The descending-score ordering used by the `sort.Slice` call in
`Search` (`search.go:52-54`): `a` precedes `b` when `b.Score ≤ a.Score`. -/
def scoreGE (a b : SearchResult) : Prop :=
  b.Score ≤ a.Score

noncomputable instance : DecidableRel scoreGE := fun a b =>
  inferInstanceAs (Decidable (b.Score ≤ a.Score))

instance : IsTotal SearchResult scoreGE :=
  ⟨fun a b => le_total b.Score a.Score⟩

instance : IsTrans SearchResult scoreGE :=
  ⟨fun _ _ _ h1 h2 => le_trans h2 h1⟩

/-- The filtering loop of `Search` (`search.go:39-49`): one `(chunk, score)`
pair per stored entry whose score is at least the threshold, in index order.
(The Go loop indexes `Embeddings[i]` for `i` ranging over `Chunks`; the `zip`
agrees with it whenever the index invariant `len(Chunks) = len(Embeddings)`
holds — with fewer embeddings than chunks the Go code would panic.) -/
noncomputable def scoredMatches (index : VectorIndex) (queryEmbedding : List ℝ)
    (threshold : ℝ) : List SearchResult :=
  (index.Chunks.zip index.Embeddings).filterMap fun p =>
    let score := CosineSimilarity queryEmbedding p.2
    if score ≥ threshold then some ⟨p.1, score⟩ else none

/-- `Search` from `search.go:31-62`: dimension guard, threshold filter,
sort by descending score, and truncation to `topK` when `0 < topK`. -/
noncomputable def Search (index : VectorIndex) (queryEmbedding : List ℝ)
    (topK : Int) (threshold : ℝ) : List SearchResult :=
  if (queryEmbedding.length : Int) ≠ index.Dimension then []
  else
    let results := scoredMatches index queryEmbedding threshold
    let sorted := results.insertionSort scoreGE
    if 0 < topK ∧ topK < (sorted.length : Int) then sorted.take topK.toNat
    else sorted

/-- `LoadIndex` from `search.go:64-71`: builds a `VectorIndex` from
`EmbeddingData` by copying the three fields verbatim. -/
def LoadIndex (data : EmbeddingData) : VectorIndex :=
  { Chunks := data.Chunks
    Embeddings := data.Embeddings
    Dimension := data.Dimension }

/-! ## Markdown chunker (`pkg/loader/loader.go`) -/

/-- The character class trimmed by Go's `strings.TrimSpace`: the full
`unicode.IsSpace` set — `'\t'`, `'\n'`, `'\v'`, `'\f'`, `'\r'`, `' '`,
U+0085, U+00A0 on the Latin-1 fast path, and beyond it the White_Space
code points U+1680, U+2000–U+200A, U+2028, U+2029, U+202F, U+205F,
U+3000. -/
def goIsSpace (c : Char) : Bool :=
  c == ' ' || c == '\t' || c == '\n' || c == '\x0B' ||
    c == '\x0C' || c == '\r' || c.val == 0x85 || c.val == 0xA0 ||
    c.val == 0x1680 || (0x2000 ≤ c.val && c.val ≤ 0x200A) ||
    c.val == 0x2028 || c.val == 0x2029 || c.val == 0x202F ||
    c.val == 0x205F || c.val == 0x3000

/-- `strings.TrimSpace` on a character list: drop space characters from
both ends. -/
def goTrim (l : List Char) : List Char :=
  ((l.dropWhile goIsSpace).reverse.dropWhile goIsSpace).reverse

/-- The number of UTF-8 bytes of a line: Go's `len(line)` at
`loader.go:95`. -/
def byteLen (l : List Char) : Nat :=
  (l.map Char.utf8Size).sum

/-- Split a character list at every newline. The result has one more
component than the number of newlines and is therefore never empty. -/
def splitNL : List Char → List (List Char)
  | [] => [[]]
  | c :: rest =>
    if c = '\n' then [] :: splitNL rest
    else
      match splitNL rest with
      | [] => [[c]]
      | l :: ls => (c :: l) :: ls

/-- `dropCR` from `bufio.ScanLines`: strip one trailing carriage return. -/
def dropCR (l : List Char) : List Char :=
  if l.getLast? = some '\r' then l.dropLast else l

/-- `bufio.MaxScanTokenSize` (64 KiB): the scanner's default buffer limit.
A line whose bytes before its newline (or before EOF) reach this size
makes `Scan` fail with `ErrTooLong`. -/
def maxScanTokenSize : Nat := 64 * 1024

/-- The token sequence produced by `bufio.Scanner` with the `ScanLines`
split function over the whole input: split at newlines, drop the trailing
empty component left by a final newline, produce no token at all for
empty input, stop at the first line of `maxScanTokenSize` or more bytes
(`Scan` fails there with `ErrTooLong`; `ChunkDocument` never checks
`scanner.Err()`, so the remaining lines are silently dropped), and strip
one trailing `'\r'` from each returned line. -/
def scanLines (cs : List Char) : List (List Char) :=
  if cs = [] then []
  else
    ((if cs.getLast? = some '\n' then (splitNL cs).dropLast
      else splitNL cs).takeWhile fun l =>
        byteLen l < maxScanTokenSize).map dropCR

/-- The CRLF normalization performed line-wise by `bufio.ScanLines`: one
carriage return immediately before each newline is removed, as is one
trailing carriage return at end of input. Used to state what
`ChunkDocument` does to Windows line endings. -/
def stripCRLF : List Char → List Char
  | [] => []
  | ['\r'] => []
  | '\r' :: '\n' :: rest => '\n' :: stripCRLF rest
  | c :: rest => c :: stripCRLF rest

/-- A chunk heading is sound for a line sequence when it is empty or is
the stripped text (leading `'#'` characters and surrounding whitespace
removed) of one of the heading lines. -/
def GoodHeading (lines : List (List Char)) (w : String) : Prop :=
  w = "" ∨ ∃ l ∈ lines, l.head? = some '#' ∧
    w = String.mk (goTrim (l.dropWhile (· == '#')))

/-- The loop state of `ChunkDocument` (`loader.go:57-96`): accumulated
chunks, current heading (stored already trimmed, as in the source),
current content builder, offset of the current chunk, and the running
byte offset `lineOffset`. -/
structure LoaderState where
  chunks : List Chunk
  heading : List Char
  content : List Char
  offset : Nat
  lineOffset : Nat

/-- `flushChunk` (`loader.go:64-73`): append the current chunk only when
the content builder is nonempty. -/
def flushChunk (path : String) (st : LoaderState) : List Chunk :=
  if st.content.isEmpty then st.chunks
  else st.chunks ++
    [⟨path, String.mk (goTrim st.content), String.mk st.heading, st.offset⟩]

/-- One iteration of the scanner loop of `ChunkDocument`
(`loader.go:75-96`): a line starting with `'#'` flushes the current chunk
and starts a new one with the stripped heading; any other line is appended
to the content builder, preceded by a newline when the builder is
nonempty. -/
def chunkStep (path : String) (st : LoaderState) (line : List Char) : LoaderState :=
  if line.head? = some '#' then
    { chunks := flushChunk path st
      heading := goTrim (line.dropWhile (· == '#'))
      content := []
      offset := st.lineOffset
      lineOffset := st.lineOffset + byteLen line + 1 }
  else
    { st with
      content := if st.content.isEmpty then line else st.content ++ '\n' :: line
      lineOffset := st.lineOffset + byteLen line + 1 }

/-- `ChunkDocument` from `loader.go:54-112`: scan the content line by
line, flush the final chunk, and fall back to a single whole-document
chunk when no chunk was produced. -/
def ChunkDocument (path content : String) : List Chunk :=
  let final := (scanLines content.data).foldl (chunkStep path) ⟨[], [], [], 0, 0⟩
  let cs := flushChunk path final
  if cs.isEmpty then [⟨path, String.mk (goTrim content.data), "", 0⟩] else cs
/-- Join lines with newlines: the inverse of `splitNL`. -/
def joinNL : List (List Char) → List Char
  | [] => []
  | [l] => l
  | l :: l' :: ls => l ++ '\n' :: joinNL (l' :: ls)


/-- The content-builder accumulation of the non-heading branch of the
scanner loop, as a standalone fold. -/
def contentAcc (acc : List Char) (ls : List (List Char)) : List Char :=
  ls.foldl (fun a l => if a.isEmpty then l else a ++ '\n' :: l) acc

/-! ## Batch-embedding pipeline (`cmd/generate-embeddings/main.go`) -/

/-- The `checkpoint` record from `main.go:23-29`. Go's `Completed` field is a
`map[int]bool` where a missing key reads as `false`; it is modelled as a
total function `Nat → Bool`. -/
structure Checkpoint where
  Chunks : List Chunk
  Embeddings : List (List ℝ)
  Completed : Nat → Bool
  ModelInfo : String
  Dimension : Int

/-- The checkpoint-validation test of `main.go:145`: the pipeline keeps an
existing checkpoint iff the number of stored chunks equals the number of
current chunks and the stored `ModelInfo` equals the current one. -/
def checkpointMatches (existing : Checkpoint) (chunks : List Chunk)
    (modelInfo : String) : Bool :=
  (existing.Chunks.length == chunks.length) && (existing.ModelInfo == modelInfo)

/-- The fresh checkpoint built at `main.go:155-163`: current chunks, a
`make([][]float32, len(chunks))` embedding slice (all slots empty), an empty
completed map, and the current model info and dimension. -/
def freshCheckpoint (chunks : List Chunk) (modelInfo : String) (dim : Int) :
    Checkpoint :=
  ⟨chunks, List.replicate chunks.length [], fun _ => false, modelInfo, dim⟩

/-- The checkpoint selection of `main.go:129-163`: with no loadable
checkpoint start fresh; with one, resume iff `checkpointMatches` holds,
otherwise start fresh. -/
def selectCheckpoint (existing : Option Checkpoint) (chunks : List Chunk)
    (modelInfo : String) (dim : Int) : Checkpoint :=
  match existing with
  | none => freshCheckpoint chunks modelInfo dim
  | some cp =>
    if checkpointMatches cp chunks modelInfo then cp
    else freshCheckpoint chunks modelInfo dim

/-- The `toProcess` work list of `main.go:191-197`: the chunk indices whose
`Completed` entry is not set. -/
def toProcess (cp : Checkpoint) (chunks : List Chunk) : List Nat :=
  (List.range chunks.length).filter fun i => !(cp.Completed i)

/-- The mutex-guarded completion step of `main.go:217-238`: store the
embedding in the positional slot `idx` and mark `idx` completed. -/
def recordEmbedding (cp : Checkpoint) (idx : Nat) (vec : List ℝ) : Checkpoint :=
  { cp with
    Embeddings := cp.Embeddings.set idx vec
    Completed := fun j => if j = idx then true else cp.Completed j }

/-- The embedding phase of `main.go:199-244` in its functional outcome: every
index of `toProcess` receives the provider's embedding of its chunk's
content (completion order does not affect the positional slots, so the
concurrent loop is modelled as a fold over the work list). -/
def runPipeline (cp : Checkpoint) (chunks : List Chunk)
    (embedFn : String → List ℝ) : Checkpoint :=
  (toProcess cp chunks).foldl
    (fun c idx => recordEmbedding c idx (embedFn (chunks.getD idx default).Content))
    cp

/-- The final assembly of `main.go:277-283`: `EmbeddingData` built verbatim
from the checkpoint's fields. -/
def assembleIndex (cp : Checkpoint) : EmbeddingData :=
  ⟨cp.Chunks, cp.Embeddings, cp.ModelInfo, cp.Dimension⟩

/-- Sample chunk: the checkpointed version of a document. -/
def chunkOld : Chunk := ⟨"a.md", "old text", "", 0⟩

/-- Sample chunk: an edited version of the same document. -/
def chunkNew : Chunk := ⟨"a.md", "new text", "", 0⟩

/-- A sample checkpoint holding `chunkOld` with its index 0 completed. -/
def staleCheckpoint : Checkpoint :=
  ⟨[chunkOld], [[1]], fun _ => true, "m", 1⟩

/-- A sample two-chunk checkpoint with index 0 completed (vector `[5]`)
and index 1 pending. -/
def halfDoneCheckpoint : Checkpoint :=
  ⟨[chunkOld, chunkNew], [[5], []], fun j => j == 0, "m", 1⟩

/-! ## Embedders (`pkg/embedder`) -/

/-- The accumulation loop of `SimpleEmbedder.Embed`: Go's
`for i, char := range text` iterates runes with `i` the byte offset of the
rune, and adds `float32(char)/1000` into slot `i % dim`. Exact rational
arithmetic stands in for `float32`. -/
def simpleEmbedRaw (dim : Nat) (text : String) : List ℚ :=
  (text.data.foldl
    (fun (p : List ℚ × Nat) c =>
      (p.1.set (p.2 % dim) (p.1.getD (p.2 % dim) 0 + (c.val.toNat : ℚ) / 1000),
        p.2 + c.utf8Size))
    (List.replicate dim 0, 0)).1

/-- Sum of squares over ℚ: the `norm` accumulator of `SimpleEmbedder.Embed`
and the quantity whose value is 1 exactly when a vector is L2-normalized. -/
def sumSqQ (v : List ℚ) : ℚ :=
  (v.map fun x => x * x).sum

/-- `SimpleEmbedder.Embed`: accumulate the hash-based vector, then — when
the sum of squares `norm` is positive — scale every component by
`1.0 / norm` (the source scales by the reciprocal of the sum of squares
itself, not of its square root). -/
def simpleEmbed (dim : Nat) (text : String) : List ℚ :=
  let vec := simpleEmbedRaw dim text
  let norm := sumSqQ vec
  if 0 < norm then vec.map fun x => x * (1 / norm) else vec

/-! ## Semaphore discipline of the concurrent embedding loops

Both concurrent call sites (`main.go:200-242` and
`EmbedBatchWithProgress`, `openai.go:82-118`) gate goroutine creation on a
buffered channel of capacity 10: the spawning loop sends into the channel
before starting a goroutine and the goroutine receives from it when it
finishes, so a task holds a token from before its `Embed` call starts
until after it returns. The discipline is modelled as a transition system
over the per-task phases. -/

/-- The lifecycle of one work item of the concurrent embedding loop. -/
inductive TaskPhase
  | pending
  | acquired
  | inEmbed
  | done
  deriving DecidableEq, Repr

/-- A task holds a semaphore token from acquisition until completion. -/
def holdsToken : TaskPhase → Bool
  | .acquired => true
  | .inEmbed => true
  | _ => false

/-- A task counts as an in-flight provider call only while inside `Embed`. -/
def inEmbedCall : TaskPhase → Bool
  | .inEmbed => true
  | _ => false

/-- Number of semaphore tokens currently held. -/
def tokensHeld (s : List TaskPhase) : Nat :=
  s.countP holdsToken

/-- Number of provider calls currently in flight. -/
def embedsInFlight (s : List TaskPhase) : Nat :=
  s.countP inEmbedCall

/-- The transitions of the semaphore discipline: a pending task may acquire
a token only while fewer than 10 are held (the buffered send blocks
otherwise); a token holder may enter its `Embed` call; a task inside
`Embed` may finish, releasing its token. -/
inductive SemStep : List TaskPhase → List TaskPhase → Prop
  | acquire (s : List TaskPhase) (i : Nat) (h : s.get? i = some .pending)
      (hcap : tokensHeld s < 10) : SemStep s (s.set i .acquired)
  | enter (s : List TaskPhase) (i : Nat) (h : s.get? i = some .acquired) :
      SemStep s (s.set i .inEmbed)
  | finish (s : List TaskPhase) (i : Nat) (h : s.get? i = some .inEmbed) :
      SemStep s (s.set i .done)

/-- The states reachable by a batch run over `n` work items, all of which
start pending. -/
def SemReachable (n : Nat) (s : List TaskPhase) : Prop :=
  Relation.ReflTransGen SemStep (List.replicate n .pending) s


theorem sumSq_nonneg (a : List ℝ) : 0 ≤ sumSq a := by
  refine List.sum_nonneg ?_
  intro x hx
  rcases List.mem_map.mp hx with ⟨y, _, rfl⟩
  exact mul_self_nonneg y

theorem euclidNorm_eq_zero_iff (a : List ℝ) : euclidNorm a = 0 ↔ sumSq a = 0 := by
  unfold euclidNorm
  exact Real.sqrt_eq_zero (sumSq_nonneg a)

/-- Claim C2: `CosineSimilarity` returns 0 on length mismatch, returns 0 when
either vector has zero Euclidean norm, and otherwise returns the dot product
divided by the product of the Euclidean norms (it is a total function, so it
never raises an error). -/
theorem cosineSimilarity_spec (a b : List ℝ) :
    (a.length ≠ b.length → CosineSimilarity a b = 0) ∧
    (euclidNorm a = 0 ∨ euclidNorm b = 0 → CosineSimilarity a b = 0) ∧
    (a.length = b.length → euclidNorm a ≠ 0 → euclidNorm b ≠ 0 →
      CosineSimilarity a b = dotProduct a b / (euclidNorm a * euclidNorm b)) := by
  refine ⟨fun h => by simp [CosineSimilarity, h], ?_, ?_⟩
  · intro h
    have h' : sumSq a = 0 ∨ sumSq b = 0 := by
      rcases h with h | h
      · exact Or.inl ((euclidNorm_eq_zero_iff a).mp h)
      · exact Or.inr ((euclidNorm_eq_zero_iff b).mp h)
    by_cases hl : a.length = b.length
    · simp [CosineSimilarity, hl, h']
    · simp [CosineSimilarity, hl]
  · intro hl ha hb
    have ha' : sumSq a ≠ 0 := fun h => ha ((euclidNorm_eq_zero_iff a).mpr h)
    have hb' : sumSq b ≠ 0 := fun h => hb ((euclidNorm_eq_zero_iff b).mpr h)
    simp [CosineSimilarity, hl, ha', hb', euclidNorm]

/-- Witness for C2: concrete vectors `[3, 4]` and `[1, 0]` satisfy the
hypotheses of the third conjunct, and the similarity is the dot product
over the product of norms there. -/
theorem cosineSimilarity_spec_witness :
    ([3, 4] : List ℝ).length = ([1, 0] : List ℝ).length ∧
    euclidNorm [3, 4] ≠ 0 ∧ euclidNorm [1, 0] ≠ 0 ∧
    CosineSimilarity [3, 4] [1, 0] =
      dotProduct [3, 4] [1, 0] / (euclidNorm [3, 4] * euclidNorm [1, 0]) := by
  have ha : euclidNorm ([3, 4] : List ℝ) ≠ 0 := by
    rw [Ne, euclidNorm_eq_zero_iff]
    norm_num [sumSq]
  have hb : euclidNorm ([1, 0] : List ℝ) ≠ 0 := by
    rw [Ne, euclidNorm_eq_zero_iff]
    norm_num [sumSq]
  exact ⟨rfl, ha, hb, (cosineSimilarity_spec [3, 4] [1, 0]).2.2 rfl ha hb⟩

/-- Claim C7: a query vector whose length differs from the index dimension
makes `Search` return the empty result list. -/
theorem search_dim_mismatch (index : VectorIndex) (q : List ℝ) (topK : Int)
    (threshold : ℝ) (h : (q.length : Int) ≠ index.Dimension) :
    Search index q topK threshold = [] := by
  simp [Search, h]

/-- Witness for C7: a concrete one-dimensional index queried with a
two-element vector yields no results. -/
theorem search_dim_mismatch_witness :
    ((([1, 2] : List ℝ).length : Int) ≠
        (VectorIndex.mk [⟨"a.md", "x", "", 0⟩] [[1]] 1).Dimension) ∧
    Search (VectorIndex.mk [⟨"a.md", "x", "", 0⟩] [[1]] 1) [1, 2] 5 0 = [] :=
  ⟨by norm_num, search_dim_mismatch _ _ _ _ (by norm_num)⟩

/-- Claim C1: on a dimension-matching query over an index satisfying the
chunk/embedding length invariant, `Search` returns a permutation of exactly
the threshold-qualifying scored entries, sorted by descending score, and
truncated to the first `topK` entries when `0 < topK` (no truncation when
`topK ≤ 0`). -/
theorem search_spec (index : VectorIndex) (q : List ℝ) (topK : Int)
    (threshold : ℝ) (hdim : (q.length : Int) = index.Dimension)
    (_hinv : index.Chunks.length = index.Embeddings.length) :
    ∃ l : List SearchResult,
      l.Perm (scoredMatches index q threshold) ∧
      l.Sorted scoreGE ∧
      Search index q topK threshold = (if 0 < topK then l.take topK.toNat else l) := by
  refine ⟨(scoredMatches index q threshold).insertionSort scoreGE,
    List.perm_insertionSort _ _, List.sorted_insertionSort _ _, ?_⟩
  unfold Search
  rw [if_neg (by simp [hdim])]
  by_cases hk : 0 < topK
  · rw [if_pos hk]
    by_cases hlen : topK <
        (((scoredMatches index q threshold).insertionSort scoreGE).length : Int)
    · rw [if_pos ⟨hk, hlen⟩]
    · rw [if_neg (fun hc => hlen hc.2)]
      refine (List.take_of_length_le ?_).symm
      omega
  · rw [if_neg (fun hc => hk hc.1), if_neg hk]

/-- Witness for C1: a concrete two-entry, one-dimensional index with a
matching query satisfies the hypotheses of `search_spec`. -/
theorem search_spec_witness :
    ((([1] : List ℝ).length : Int) =
        (VectorIndex.mk [⟨"a.md", "x", "", 0⟩, ⟨"b.md", "y", "", 0⟩]
          [[1], [-1]] 1).Dimension) ∧
    (∃ l : List SearchResult,
      l.Perm (scoredMatches
        (VectorIndex.mk [⟨"a.md", "x", "", 0⟩, ⟨"b.md", "y", "", 0⟩]
          [[1], [-1]] 1) [1] 0) ∧
      l.Sorted scoreGE ∧
      Search (VectorIndex.mk [⟨"a.md", "x", "", 0⟩, ⟨"b.md", "y", "", 0⟩]
          [[1], [-1]] 1) [1] 2 0 = (if (0 : Int) < 2 then l.take (2 : Int).toNat else l)) :=
  ⟨by norm_num, search_spec _ [1] 2 0 (by norm_num) (by norm_num)⟩

/-- Counterexample for C8: in `"# A\n# B\nbar"` the line `"# A"` is a
heading line (it starts with `'#'` and its stripped text is `"A"`), yet
the output contains no chunk with heading `"A"`: a heading immediately
followed by another heading accumulates no content, and `flushChunk`
drops content-less chunks. -/
theorem chunkDocument_drops_empty_heading :
    ("# A".data ∈ scanLines ("# A\n# B\nbar" : String).data) ∧
    ("# A".data.head? = some '#') ∧
    (String.mk (goTrim ("# A".data.dropWhile (· == '#'))) = "A") ∧
    (ChunkDocument "p" "# A\n# B\nbar" = [⟨"p", "bar", "B", 4⟩]) ∧
    ("A" ∉ (ChunkDocument "p" "# A\n# B\nbar").map Chunk.Heading) := by
  decide

/-! ## Lemmas about the chunker -/


theorem splitNL_ne_nil (cs : List Char) : splitNL cs ≠ [] := by
  cases cs with
  | nil => simp [splitNL]
  | cons c rest =>
    simp only [splitNL]
    by_cases h : c = '\n'
    · simp [h]
    · simp only [if_neg h]
      cases splitNL rest <;> simp

theorem joinNL_cons_cons (a l : List Char) (ls : List (List Char)) :
    joinNL ((a ++ '\n' :: l) :: ls) = a ++ '\n' :: joinNL (l :: ls) := by
  cases ls with
  | nil => simp [joinNL]
  | cons m ms => simp [joinNL]

theorem splitNL_exists_cons (cs : List Char) :
    ∃ m ms, splitNL cs = m :: ms := by
  cases hsp : splitNL cs with
  | nil => exact absurd hsp (splitNL_ne_nil cs)
  | cons m ms => exact ⟨m, ms, rfl⟩

theorem splitNL_cons_newline (rest : List Char) :
    splitNL ('\n' :: rest) = [] :: splitNL rest := by
  simp [splitNL]

theorem splitNL_cons_other {c : Char} (hc : c ≠ '\n') (rest : List Char)
    {m : List Char} {ms : List (List Char)} (hm : splitNL rest = m :: ms) :
    splitNL (c :: rest) = (c :: m) :: ms := by
  simp only [splitNL, if_neg hc, hm]

theorem joinNL_splitNL (cs : List Char) : joinNL (splitNL cs) = cs := by
  induction cs with
  | nil => simp [splitNL, joinNL]
  | cons c rest ih =>
    obtain ⟨m, ms, hm⟩ := splitNL_exists_cons rest
    rw [hm] at ih
    by_cases h : c = '\n'
    · subst h
      rw [splitNL_cons_newline, hm]
      have hj : joinNL ([] :: m :: ms) = '\n' :: joinNL (m :: ms) := by
        simp [joinNL]
      rw [hj, ih]
    · rw [splitNL_cons_other h rest hm]
      cases ms with
      | nil => simpa [joinNL] using ih
      | cons m' ms' =>
        simp only [joinNL] at ih ⊢
        rw [← ih]
        simp

theorem splitNL_getLast_newline :
    ∀ cs : List Char, cs.getLast? = some '\n' →
      splitNL cs = splitNL cs.dropLast ++ [[]] := by
  intro cs
  induction cs with
  | nil => intro h; simp at h
  | cons c rest ih =>
    intro h
    cases rest with
    | nil =>
      simp only [List.getLast?_singleton, Option.some_inj] at h
      subst h
      simp [splitNL]
    | cons d rest' =>
      have h' : (d :: rest').getLast? = some '\n' := by
        rwa [List.getLast?_cons_cons] at h
      have ih' := ih h'
      by_cases hc : c = '\n'
      · subst hc
        rw [splitNL_cons_newline, ih', List.dropLast_cons₂,
          splitNL_cons_newline]
        simp
      · obtain ⟨m0, ms0, hm⟩ := splitNL_exists_cons (d :: rest').dropLast
        have hm' : splitNL (d :: rest') = m0 :: (ms0 ++ [[]]) := by
          rw [ih', hm]
          simp
        rw [splitNL_cons_other hc _ hm', List.dropLast_cons₂,
          splitNL_cons_other hc _ hm]
        simp

theorem splitNL_subset :
    ∀ cs : List Char, ∀ l ∈ splitNL cs, ∀ c ∈ l, c ∈ cs := by
  intro cs
  induction cs with
  | nil =>
    intro l hl c hc
    simp [splitNL] at hl
    subst hl
    simp at hc
  | cons a rest ih =>
    intro l hl c hc
    by_cases ha : a = '\n'
    · subst ha
      rw [splitNL_cons_newline] at hl
      rcases List.mem_cons.mp hl with rfl | hl'
      · simp at hc
      · exact List.mem_cons_of_mem _ (ih l hl' c hc)
    · obtain ⟨m, ms, hm⟩ := splitNL_exists_cons rest
      rw [splitNL_cons_other ha rest hm] at hl
      rcases List.mem_cons.mp hl with rfl | hl'
      · rcases List.mem_cons.mp hc with rfl | hc'
        · exact List.mem_cons_self _ _
        · refine List.mem_cons_of_mem _ (ih m ?_ c hc')
          rw [hm]
          exact List.mem_cons_self m ms
      · refine List.mem_cons_of_mem _ (ih l ?_ c hc)
        rw [hm]
        exact List.mem_cons_of_mem m hl'

theorem dropCR_of_not_mem {l : List Char} (h : '\r' ∉ l) : dropCR l = l := by
  unfold dropCR
  rw [if_neg]
  intro hc
  rcases List.mem_getLast?_eq_getLast hc with ⟨hne, hlast⟩
  exact h (hlast ▸ List.getLast_mem hne)

theorem dropCR_map_id {ps : List (List Char)} (h : ∀ x ∈ ps, dropCR x = x) :
    ps.map dropCR = ps := by
  induction ps with
  | nil => rfl
  | cons a l ih =>
    simp only [List.map_cons, h a (List.mem_cons_self a l),
      ih fun x hx => h x (List.mem_cons_of_mem a hx)]

theorem dropWhile_append_eq (p : Char → Bool) (l₁ l₂ : List Char) :
    (l₁ ++ l₂).dropWhile p =
      if (l₁.dropWhile p).isEmpty then l₂.dropWhile p
      else l₁.dropWhile p ++ l₂ := by
  induction l₁ with
  | nil => simp
  | cons a l ih =>
    by_cases h : p a
    · simpa [List.dropWhile_cons, h] using ih
    · simp [List.dropWhile_cons, h]

theorem goTrim_cons_space {c : Char} (h : goIsSpace c) (xs : List Char) :
    goTrim (c :: xs) = goTrim xs := by
  simp [goTrim, List.dropWhile_cons, h]

theorem goTrim_append_space {c : Char} (h : goIsSpace c) (xs : List Char) :
    goTrim (xs ++ [c]) = goTrim xs := by
  unfold goTrim
  rw [dropWhile_append_eq]
  by_cases he : (xs.dropWhile goIsSpace).isEmpty
  · rw [if_pos he]
    rw [List.isEmpty_iff] at he
    rw [he]
    simp [List.dropWhile_cons, h]
  · rw [if_neg he]
    rw [List.reverse_append]
    simp [List.dropWhile_cons, h]
theorem contentAcc_of_ne_nil {a : List Char} (ha : a ≠ [])
    (ls : List (List Char)) : contentAcc a ls = joinNL (a :: ls) := by
  induction ls generalizing a with
  | nil => simp [contentAcc, joinNL]
  | cons l ls ih =>
    have ha' : a.isEmpty = false := by simpa [List.isEmpty_iff] using ha
    simp only [contentAcc, List.foldl_cons, ha', Bool.false_eq_true, if_false]
    have step : ls.foldl (fun a l => if a.isEmpty then l else a ++ '\n' :: l)
        (a ++ '\n' :: l) = contentAcc (a ++ '\n' :: l) ls := rfl
    rw [step, ih (by simp), joinNL_cons_cons]
    simp [joinNL]

theorem goTrim_contentAcc (ls : List (List Char)) :
    goTrim (contentAcc [] ls) = goTrim (joinNL ls) := by
  cases ls with
  | nil => rfl
  | cons l ls =>
    by_cases hl : l = []
    · subst hl
      have h1 : contentAcc [] ([] :: ls) = contentAcc [] ls := by
        simp [contentAcc]
      rw [h1]
      have : goTrim (joinNL ([] :: ls)) = goTrim (joinNL ls) := by
        cases ls with
        | nil => rfl
        | cons m ms =>
          have : joinNL ([] :: m :: ms) = '\n' :: joinNL (m :: ms) := by
            simp [joinNL]
          rw [this, goTrim_cons_space (by decide)]
      rw [this]
      exact goTrim_contentAcc ls
    · have h1 : contentAcc [] (l :: ls) = contentAcc l ls := by
        simp [contentAcc]
      rw [h1, contentAcc_of_ne_nil hl]

theorem stripCRLF_cons_other {c : Char} (hc : c ≠ '\r') (rest : List Char) :
    stripCRLF (c :: rest) = c :: stripCRLF rest := by
  simp [stripCRLF, hc]

theorem stripCRLF_crlf (rest : List Char) :
    stripCRLF ('\r' :: '\n' :: rest) = '\n' :: stripCRLF rest := rfl

theorem stripCRLF_cr_other {d : Char} (hd : d ≠ '\n') (rest2 : List Char) :
    stripCRLF ('\r' :: d :: rest2) = '\r' :: stripCRLF (d :: rest2) := by
  simp [stripCRLF, hd]

theorem joinNL_cons_head (a : Char) (l : List Char) (ls : List (List Char)) :
    joinNL ((a :: l) :: ls) = a :: joinNL (l :: ls) := by
  cases ls with
  | nil => rfl
  | cons m ms => simp [joinNL]

theorem dropCR_cons_of_ne_nil {a : Char} {m : List Char} (hm : m ≠ []) :
    dropCR (a :: m) = a :: dropCR m := by
  cases m with
  | nil => exact absurd rfl hm
  | cons b t =>
    unfold dropCR
    rw [List.getLast?_cons_cons]
    by_cases hl : (b :: t).getLast? = some '\r'
    · rw [if_pos hl, if_pos hl, List.dropLast_cons₂]
    · rw [if_neg hl, if_neg hl]

theorem mem_of_mem_takeWhile {α : Type} {p : α → Bool} :
    ∀ {ps : List α} {x : α}, x ∈ ps.takeWhile p → x ∈ ps := by
  intro ps
  induction ps with
  | nil =>
    intro x h
    simp at h
  | cons a l ih =>
    intro x h
    rw [List.takeWhile_cons] at h
    by_cases hp : p a = true
    · rw [if_pos hp] at h
      rcases List.mem_cons.mp h with rfl | h'
      · exact List.mem_cons_self _ _
      · exact List.mem_cons_of_mem _ (ih h')
    · rw [if_neg hp] at h
      simp at h

theorem takeWhile_eq_self_of_forall {α : Type} (p : α → Bool) :
    ∀ ps : List α, (∀ l ∈ ps, p l = true) → ps.takeWhile p = ps := by
  intro ps
  induction ps with
  | nil => intro _; rfl
  | cons a l ih =>
    intro h
    rw [List.takeWhile_cons, if_pos (h a (List.mem_cons_self a l))]
    rw [ih fun x hx => h x (List.mem_cons_of_mem a hx)]

/-- Over inputs whose lines all stay below the scanner's token limit, no
truncation happens and the scanner returns every line. -/
theorem scanLines_of_short {cs : List Char} (hne : cs ≠ [])
    (hshort : ∀ l ∈ splitNL cs, byteLen l < maxScanTokenSize) :
    scanLines cs =
      (if cs.getLast? = some '\n' then (splitNL cs).dropLast
       else splitNL cs).map dropCR := by
  unfold scanLines
  rw [if_neg hne]
  congr 1
  apply takeWhile_eq_self_of_forall
  intro l hl
  have hmem : l ∈ splitNL cs := by
    by_cases hlast : cs.getLast? = some '\n'
    · rw [if_pos hlast] at hl
      exact List.mem_of_mem_dropLast hl
    · rwa [if_neg hlast] at hl
  simpa using hshort l hmem

/-- Every scanner token is the `dropCR` of one of the raw newline-split
components of the input. -/
theorem mem_scanLines {cs l : List Char} (hl : l ∈ scanLines cs) :
    ∃ r ∈ splitNL cs, l = dropCR r := by
  unfold scanLines at hl
  by_cases hne : cs = []
  · rw [if_pos hne] at hl
    simp at hl
  · rw [if_neg hne] at hl
    rcases List.mem_map.mp hl with ⟨r, hr, rfl⟩
    have hr2 : r ∈ (if cs.getLast? = some '\n' then (splitNL cs).dropLast
        else splitNL cs) := mem_of_mem_takeWhile hr
    refine ⟨r, ?_, rfl⟩
    by_cases hlast : cs.getLast? = some '\n'
    · rw [if_pos hlast] at hr2
      exact List.mem_of_mem_dropLast hr2
    · rwa [if_neg hlast] at hr2

theorem head?_dropCR {r : List Char} {c : Char}
    (h : (dropCR r).head? = some c) : r.head? = some c := by
  unfold dropCR at h
  by_cases hr : r.getLast? = some '\r'
  · rw [if_pos hr] at h
    cases r with
    | nil => simp at h
    | cons a t =>
      cases t with
      | nil => simp at h
      | cons b t2 =>
        rw [List.dropLast_cons₂] at h
        simp only [List.head?_cons] at h ⊢
        exact h
  · rwa [if_neg hr] at h

/-- Rejoining the `dropCR`-stripped newline-split components of an input
is exactly its CRLF normalization. -/
theorem joinNL_map_dropCR : ∀ cs : List Char,
    joinNL ((splitNL cs).map dropCR) = stripCRLF cs := by
  intro cs
  induction cs with
  | nil => rfl
  | cons a rest ih =>
    by_cases ha : a = '\n'
    · subst ha
      rw [splitNL_cons_newline, List.map_cons]
      obtain ⟨m, ms, hm⟩ := splitNL_exists_cons rest
      rw [hm, List.map_cons]
      have h1 : joinNL (dropCR [] :: dropCR m :: ms.map dropCR)
          = '\n' :: joinNL (dropCR m :: ms.map dropCR) := by
        simp [dropCR, joinNL]
      rw [h1, ← List.map_cons, ← hm, ih,
        stripCRLF_cons_other (by decide) rest]
    · cases rest with
      | nil =>
        by_cases har : a = '\r'
        · subst har
          rfl
        · have hs : splitNL [a] = [[a]] := by simp [splitNL, ha]
          have hdc : dropCR [a] = [a] := by simp [dropCR, har]
          rw [hs, List.map_cons, hdc, List.map_nil,
            stripCRLF_cons_other har]
          rfl
      | cons d rest2 =>
        by_cases hd : d = '\n'
        · subst hd
          have hs : splitNL (a :: '\n' :: rest2) = [a] :: splitNL rest2 :=
            splitNL_cons_other ha _ (splitNL_cons_newline rest2)
          rw [hs, List.map_cons]
          obtain ⟨m2, ms2, hm2⟩ := splitNL_exists_cons rest2
          have ihn : '\n' :: joinNL ((splitNL rest2).map dropCR)
              = '\n' :: stripCRLF rest2 := by
            have h2 := ih
            rw [splitNL_cons_newline, List.map_cons,
              stripCRLF_cons_other (by decide) rest2] at h2
            have h3 : joinNL (dropCR [] :: (splitNL rest2).map dropCR)
                = '\n' :: joinNL ((splitNL rest2).map dropCR) := by
              rw [hm2, List.map_cons]
              simp [dropCR, joinNL]
            rw [h3] at h2
            exact h2
          by_cases har : a = '\r'
          · subst har
            have hdc : dropCR ['\r'] = [] := rfl
            rw [hdc]
            have h4 : joinNL ([] :: (splitNL rest2).map dropCR)
                = '\n' :: joinNL ((splitNL rest2).map dropCR) := by
              rw [hm2, List.map_cons]
              simp [joinNL]
            rw [h4, stripCRLF_crlf]
            exact ihn
          · have hdc : dropCR [a] = [a] := by simp [dropCR, har]
            rw [hdc]
            have h4 : joinNL ([a] :: (splitNL rest2).map dropCR)
                = a :: '\n' :: joinNL ((splitNL rest2).map dropCR) := by
              rw [hm2, List.map_cons]
              simp [joinNL]
            rw [h4, stripCRLF_cons_other har,
              stripCRLF_cons_other (by decide) rest2]
            exact congrArg (List.cons a) ihn
        · obtain ⟨mp, msp, hmp⟩ := splitNL_exists_cons rest2
          have hsd : splitNL (d :: rest2) = (d :: mp) :: msp :=
            splitNL_cons_other hd rest2 hmp
          rw [splitNL_cons_other ha _ hsd, List.map_cons,
            dropCR_cons_of_ne_nil (List.cons_ne_nil d mp),
            joinNL_cons_head, ← List.map_cons, ← hsd, ih]
          by_cases har : a = '\r'
          · subst har
            rw [stripCRLF_cr_other hd]
          · rw [stripCRLF_cons_other har]

/-- CRLF normalization commutes with appending a final newline. -/
theorem stripCRLF_append_newline : ∀ xs : List Char,
    stripCRLF (xs ++ ['\n']) = stripCRLF xs ++ ['\n'] := by
  intro xs
  induction xs with
  | nil => rfl
  | cons a rest ih =>
    by_cases har : a = '\r'
    · subst har
      cases rest with
      | nil => rfl
      | cons d rest2 =>
        by_cases hd : d = '\n'
        · subst hd
          simp only [List.cons_append]
          rw [stripCRLF_crlf, stripCRLF_crlf]
          have ih2 : stripCRLF (rest2 ++ ['\n']) = stripCRLF rest2 ++ ['\n'] := by
            have h2 := ih
            simp only [List.cons_append] at h2
            rw [stripCRLF_cons_other (by decide) (rest2 ++ ['\n']),
              stripCRLF_cons_other (by decide) rest2] at h2
            simpa using h2
          rw [ih2]
          simp
        · simp only [List.cons_append]
          rw [stripCRLF_cr_other hd, stripCRLF_cr_other hd]
          simp only [List.cons_append] at ih ⊢
          rw [ih]
    · simp only [List.cons_append]
      rw [stripCRLF_cons_other har, stripCRLF_cons_other har]
      simp only [List.cons_append]
      rw [ih]

/-- CRLF normalization is the identity on carriage-return-free input. -/
theorem stripCRLF_of_not_mem {cs : List Char} (h : '\r' ∉ cs) :
    stripCRLF cs = cs := by
  induction cs with
  | nil => rfl
  | cons a rest ih =>
    have ha : a ≠ '\r' := fun he => h (by rw [← he]; exact List.mem_cons_self a rest)
    rw [stripCRLF_cons_other ha, ih fun hc => h (List.mem_cons_of_mem a hc)]

/-- With every line below the scanner limit, the trimmed rejoin of the
scanned lines is the trimmed CRLF-normalized input. -/
theorem goTrim_scanLines_stripCRLF {cs : List Char}
    (hshort : ∀ l ∈ splitNL cs, byteLen l < maxScanTokenSize) :
    goTrim (joinNL (scanLines cs)) = goTrim (stripCRLF cs) := by
  by_cases hnil : cs = []
  · subst hnil
    rfl
  · rw [scanLines_of_short hnil hshort]
    by_cases hlast : cs.getLast? = some '\n'
    · rw [if_pos hlast, splitNL_getLast_newline cs hlast,
        List.dropLast_concat, joinNL_map_dropCR]
      conv_rhs => rw [← List.dropLast_append_getLast? '\n' hlast,
        stripCRLF_append_newline, goTrim_append_space (by decide)]
    · rw [if_neg hlast, joinNL_map_dropCR]

theorem contentAcc_ne_nil {a : List Char} (ha : a ≠ [])
    (ls : List (List Char)) : contentAcc a ls ≠ [] := by
  rw [contentAcc_of_ne_nil ha]
  cases ls with
  | nil => simpa [joinNL] using ha
  | cons m ms => simp [joinNL]

theorem contentAcc_nil_forall :
    ∀ ls : List (List Char), contentAcc [] ls = [] → ∀ l ∈ ls, l = [] := by
  intro ls
  induction ls with
  | nil =>
    intro _ l hl
    simp at hl
  | cons l0 ls ih =>
    intro hacc l hl
    have hstep : contentAcc [] (l0 :: ls) = contentAcc l0 ls := by
      simp [contentAcc]
    rw [hstep] at hacc
    by_cases hl0 : l0 = []
    · subst hl0
      rcases List.mem_cons.mp hl with rfl | hl'
      · rfl
      · exact ih hacc l hl'
    · exact absurd hacc (contentAcc_ne_nil hl0 ls)

theorem dropCR_eq_nil {r : List Char} (h : dropCR r = []) :
    r = [] ∨ r = ['\r'] := by
  unfold dropCR at h
  by_cases hr : r.getLast? = some '\r'
  · rw [if_pos hr] at h
    cases r with
    | nil => exact Or.inl rfl
    | cons a t =>
      cases t with
      | nil =>
        right
        simp only [List.getLast?_singleton, Option.some_inj] at hr
        rw [hr]
      | cons b t2 => simp [List.dropLast_cons₂] at h
  · rw [if_neg hr] at h
    exact Or.inl h

theorem mem_joinNL :
    ∀ (ps : List (List Char)) (c : Char), c ∈ joinNL ps →
      (∃ l ∈ ps, c ∈ l) ∨ c = '\n' := by
  intro ps
  induction ps with
  | nil =>
    intro c hc
    simp [joinNL] at hc
  | cons l ls ih =>
    intro c hc
    cases ls with
    | nil => exact Or.inl ⟨l, List.mem_cons_self _ _, by simpa [joinNL] using hc⟩
    | cons m ms =>
      simp only [joinNL] at hc
      rcases List.mem_append.mp hc with hc | hc
      · exact Or.inl ⟨l, List.mem_cons_self _ _, hc⟩
      · rcases List.mem_cons.mp hc with rfl | hc2
        · exact Or.inr rfl
        · rcases ih c hc2 with ⟨l2, hl2, hcl⟩ | hn
          · exact Or.inl ⟨l2, List.mem_cons_of_mem _ hl2, hcl⟩
          · exact Or.inr hn

theorem mem_stripCRLF :
    ∀ (xs : List Char) (c : Char), c ∈ stripCRLF xs → c ∈ xs := by
  intro xs
  induction xs with
  | nil =>
    intro c hc
    simp [stripCRLF] at hc
  | cons a rest ih =>
    intro c hc
    by_cases har : a = '\r'
    · subst har
      cases rest with
      | nil => simp [stripCRLF] at hc
      | cons d rest2 =>
        by_cases hd : d = '\n'
        · subst hd
          rw [stripCRLF_crlf] at hc
          rcases List.mem_cons.mp hc with rfl | hc2
          · simp
          · have hc3 : c ∈ stripCRLF ('\n' :: rest2) := by
              rw [stripCRLF_cons_other (by decide) rest2]
              exact List.mem_cons_of_mem _ hc2
            exact List.mem_cons_of_mem _ (ih c hc3)
        · rw [stripCRLF_cr_other hd] at hc
          rcases List.mem_cons.mp hc with rfl | hc2
          · exact List.mem_cons_self _ _
          · exact List.mem_cons_of_mem _ (ih c hc2)
    · rw [stripCRLF_cons_other har] at hc
      rcases List.mem_cons.mp hc with rfl | hc2
      · exact List.mem_cons_self _ _
      · exact List.mem_cons_of_mem _ (ih c hc2)

theorem dropWhile_eq_nil_of_space {l : List Char}
    (h : ∀ c ∈ l, goIsSpace c) : l.dropWhile goIsSpace = [] := by
  induction l with
  | nil => rfl
  | cons a t ih =>
    rw [List.dropWhile_cons, if_pos (h a (List.mem_cons_self a t))]
    exact ih fun c hc => h c (List.mem_cons_of_mem a hc)

theorem goTrim_eq_nil_of_space {l : List Char}
    (h : ∀ c ∈ l, goIsSpace c) : goTrim l = [] := by
  unfold goTrim
  rw [dropWhile_eq_nil_of_space h]
  rfl

theorem foldl_chunkStep_no_heading (path : String) (lines : List (List Char))
    (h : ∀ l ∈ lines, l.head? ≠ some '#') :
    ∀ st : LoaderState,
      lines.foldl (chunkStep path) st =
        ⟨st.chunks, st.heading, contentAcc st.content lines, st.offset,
          st.lineOffset + (lines.map fun l => byteLen l + 1).sum⟩ := by
  induction lines with
  | nil =>
    intro st
    cases st
    simp [contentAcc]
  | cons l ls ih =>
    intro st
    have hl : l.head? ≠ some '#' := h l (List.mem_cons_self _ _)
    have hrest : ∀ m ∈ ls, m.head? ≠ some '#' :=
      fun m hm => h m (List.mem_cons_of_mem _ hm)
    simp only [List.foldl_cons]
    have hstep : chunkStep path st l =
        { st with
          content := if st.content.isEmpty then l else st.content ++ '\n' :: l
          lineOffset := st.lineOffset + byteLen l + 1 } := by
      unfold chunkStep
      rw [if_neg hl]
    rw [hstep, ih hrest]
    have hacc : contentAcc st.content (l :: ls) =
        contentAcc (if st.content.isEmpty then l else st.content ++ '\n' :: l)
          ls := rfl
    rw [hacc]
    simp only [List.map_cons, List.sum_cons]
    congr 1
    omega

theorem flushChunk_good (path : String) (lines0 : List (List Char))
    (st : LoaderState)
    (hc : ∀ c ∈ st.chunks, GoodHeading lines0 c.Heading)
    (hh : GoodHeading lines0 (String.mk st.heading)) :
    ∀ c ∈ flushChunk path st, GoodHeading lines0 c.Heading := by
  intro c hcm
  unfold flushChunk at hcm
  split at hcm
  · exact hc c hcm
  · rcases List.mem_append.mp hcm with hcm1 | hcm2
    · exact hc c hcm1
    · rcases List.mem_singleton.mp hcm2 with rfl
      exact hh

theorem foldl_chunkStep_good (path : String) (lines0 : List (List Char)) :
    ∀ lines : List (List Char), (∀ l ∈ lines, l ∈ lines0) →
      ∀ st : LoaderState,
        (∀ c ∈ st.chunks, GoodHeading lines0 c.Heading) →
        GoodHeading lines0 (String.mk st.heading) →
        (∀ c ∈ (lines.foldl (chunkStep path) st).chunks,
            GoodHeading lines0 c.Heading) ∧
        GoodHeading lines0 (String.mk (lines.foldl (chunkStep path) st).heading) := by
  intro lines
  induction lines with
  | nil =>
    intro _ st hc hh
    exact ⟨hc, hh⟩
  | cons l ls ih =>
    intro hsub st hc hh
    simp only [List.foldl_cons]
    by_cases hl : l.head? = some '#'
    · have hstep : chunkStep path st l =
          ⟨flushChunk path st, goTrim (l.dropWhile (· == '#')), [],
            st.lineOffset, st.lineOffset + byteLen l + 1⟩ := by
        unfold chunkStep
        rw [if_pos hl]
      rw [hstep]
      refine ih (fun m hm => hsub m (List.mem_cons_of_mem _ hm)) _ ?_ ?_
      · exact flushChunk_good path lines0 st hc hh
      · exact Or.inr ⟨l, hsub l (List.mem_cons_self _ _), hl, rfl⟩
    · have hstep : chunkStep path st l =
          { st with
            content := if st.content.isEmpty then l
              else st.content ++ '\n' :: l
            lineOffset := st.lineOffset + byteLen l + 1 } := by
        unfold chunkStep
        rw [if_neg hl]
      rw [hstep]
      exact ih (fun m hm => hsub m (List.mem_cons_of_mem _ hm)) _ hc hh

/-- Claim C8 (amended): chunk headings come only from heading lines —
every chunk of `ChunkDocument`'s output has either the empty heading or
the stripped text (leading `'#'` characters and surrounding whitespace
removed) of one of the scanned heading lines; a heading line whose section
accumulates no content produces no chunk, so `"# A\n# B\nbar"` yields only
the heading `"B"`; and the document `"# A\nfoo\n\n# B\nbar\n"` yields
exactly the two chunks `("A", "foo")` at offset 0 and `("B", "bar")` at
offset 9. -/
theorem chunkDocument_heading_spec :
    (∀ (path content : String), ∀ c ∈ ChunkDocument path content,
      GoodHeading (scanLines content.data) c.Heading) ∧
    ChunkDocument "doc.md" "# A\nfoo\n\n# B\nbar\n" =
      [⟨"doc.md", "foo", "A", 0⟩, ⟨"doc.md", "bar", "B", 9⟩] ∧
    (ChunkDocument "p" "# A\n# B\nbar").map Chunk.Heading = ["B"] := by
  refine ⟨?_, by decide, by decide⟩
  intro path content c hc
  simp only [ChunkDocument] at hc
  by_cases hcs : (flushChunk path
      ((scanLines content.data).foldl (chunkStep path) ⟨[], [], [], 0, 0⟩)).isEmpty
  · rw [if_pos hcs] at hc
    rcases List.mem_singleton.mp hc with rfl
    exact Or.inl rfl
  · rw [if_neg hcs] at hc
    have hgood := foldl_chunkStep_good path (scanLines content.data)
      (scanLines content.data) (fun _ h => h) ⟨[], [], [], 0, 0⟩
      (fun c hcm => absurd hcm (List.not_mem_nil c)) (Or.inl rfl)
    exact flushChunk_good path (scanLines content.data) _ hgood.1 hgood.2 c hc

/-- Witness for C8 (amended): the chunk `("B", "bar")` of the two-heading
document indeed carries the stripped text of a scanned heading line. -/
theorem chunkDocument_heading_spec_witness :
    ((⟨"doc.md", "bar", "B", 9⟩ : Chunk) ∈
      ChunkDocument "doc.md" "# A\nfoo\n\n# B\nbar\n") ∧
    GoodHeading (scanLines ("# A\nfoo\n\n# B\nbar\n" : String).data)
      (⟨"doc.md", "bar", "B", 9⟩ : Chunk).Heading :=
  ⟨by decide,
    chunkDocument_heading_spec.1 "doc.md" "# A\nfoo\n\n# B\nbar\n" _ (by decide)⟩

/-- Counterexample for C10: the heading-free content `"a\r\nb"` yields one
chunk whose `Content` is `"a\nb"` — the scanner strips the carriage return
of the CRLF line ending — while the whole trimmed content is `"a\r\nb"`,
so the chunk content is not the whole trimmed content. -/
theorem chunkDocument_crlf_counterexample :
    (∀ l ∈ splitNL ("a\r\nb" : String).data, l.head? ≠ some '#') ∧
    ChunkDocument "p" "a\r\nb" = [⟨"p", "a\nb", "", 0⟩] ∧
    String.mk (goTrim ("a\r\nb" : String).data) = "a\r\nb" ∧
    ("a\nb" : String) ≠ "a\r\nb" := by
  decide

/-- Claim C10 (amended): `ChunkDocument` never returns an empty sequence.
When the content contains no heading line, the result is exactly one chunk
with empty `Heading` and `Offset` 0; provided every line stays below the
scanner's 64 KiB token limit, its `Content` is the whole trimmed content
after CRLF normalization (`stripCRLF`), which for carriage-return-free
content is the whole trimmed content, possibly the empty string. -/
theorem chunkDocument_no_heading_spec (path content : String) :
    ChunkDocument path content ≠ [] ∧
    ((∀ l ∈ splitNL content.data, l.head? ≠ some '#') →
      ∃ c : String,
        ChunkDocument path content = [⟨path, c, "", 0⟩] ∧
        ((∀ l ∈ splitNL content.data, byteLen l < maxScanTokenSize) →
          c = String.mk (goTrim (stripCRLF content.data)) ∧
          ('\r' ∉ content.data → c = String.mk (goTrim content.data)))) := by
  constructor
  · by_cases hcs : (flushChunk path
        ((scanLines content.data).foldl (chunkStep path) ⟨[], [], [], 0, 0⟩)).isEmpty
    · simp [ChunkDocument, hcs]
    · simp only [ChunkDocument, hcs, Bool.false_eq_true, if_false]
      rwa [Ne, ← List.isEmpty_iff]
  · intro hnh
    have hnh' : ∀ l ∈ scanLines content.data, l.head? ≠ some '#' := by
      intro l hl hhead
      obtain ⟨r, hr, rfl⟩ := mem_scanLines hl
      exact hnh r hr (head?_dropCR hhead)
    have hfold := foldl_chunkStep_no_heading path (scanLines content.data)
      hnh' ⟨[], [], [], 0, 0⟩
    by_cases hAe : (contentAcc [] (scanLines content.data)).isEmpty
    · have hfl : flushChunk path
          ((scanLines content.data).foldl (chunkStep path) ⟨[], [], [], 0, 0⟩)
          = [] := by
        rw [hfold]
        simp [flushChunk, hAe]
      refine ⟨String.mk (goTrim content.data), ?_, ?_⟩
      · simp [ChunkDocument, hfl]
      · intro hshort
        have hallnil : ∀ l ∈ scanLines content.data, l = [] :=
          contentAcc_nil_forall _ (List.isEmpty_iff.mp hAe)
        have hraw : ∀ l ∈ splitNL content.data, dropCR l = [] := by
          intro l hlr
          by_cases hnil : content.data = []
          · rw [hnil] at hlr
            simp [splitNL] at hlr
            rw [hlr]
            rfl
          · rw [scanLines_of_short hnil hshort] at hallnil
            by_cases hlast : content.data.getLast? = some '\n'
            · rw [if_pos hlast] at hallnil
              rw [splitNL_getLast_newline _ hlast] at hlr
              rcases List.mem_append.mp hlr with hl1 | hl2
              · apply hallnil (dropCR l)
                rw [splitNL_getLast_newline _ hlast, List.dropLast_concat]
                exact List.mem_map_of_mem dropCR hl1
              · simp at hl2
                rw [hl2]
                rfl
            · rw [if_neg hlast] at hallnil
              exact hallnil (dropCR l) (List.mem_map_of_mem dropCR hlr)
        have hspace : ∀ ch ∈ content.data, goIsSpace ch := by
          intro ch hch
          have hch2 : ch ∈ joinNL (splitNL content.data) := by
            rw [joinNL_splitNL]
            exact hch
          rcases mem_joinNL _ ch hch2 with ⟨l, hlmem, hchl⟩ | hn
          · rcases dropCR_eq_nil (hraw l hlmem) with rfl | rfl
            · simp at hchl
            · simp at hchl
              rw [hchl]
              decide
          · rw [hn]
            decide
        have e1 : goTrim content.data = [] := goTrim_eq_nil_of_space hspace
        have e2 : goTrim (stripCRLF content.data) = [] :=
          goTrim_eq_nil_of_space fun ch hch => hspace ch (mem_stripCRLF _ ch hch)
        refine ⟨?_, fun _ => rfl⟩
        rw [e1, e2]
    · have hfl : flushChunk path
          ((scanLines content.data).foldl (chunkStep path) ⟨[], [], [], 0, 0⟩)
          = [⟨path, String.mk (goTrim (contentAcc [] (scanLines content.data))),
              "", 0⟩] := by
        rw [hfold]
        simp [flushChunk, hAe]
      refine ⟨String.mk (goTrim (contentAcc [] (scanLines content.data))),
        ?_, ?_⟩
      · simp [ChunkDocument, hfl]
      · intro hshort
        have h1 := goTrim_contentAcc (scanLines content.data)
        have h2 := goTrim_scanLines_stripCRLF hshort
        refine ⟨by rw [h1, h2], ?_⟩
        intro hcr
        rw [h1, h2, stripCRLF_of_not_mem hcr]

/-- Witness for C10 (amended): the concrete heading-free content
`" hi "` produces the single whole-document chunk with trimmed content. -/
theorem chunkDocument_no_heading_spec_witness :
    ChunkDocument "p" " hi " ≠ [] ∧
    (∀ l ∈ splitNL (" hi " : String).data, l.head? ≠ some '#') ∧
    (∃ c : String,
      ChunkDocument "p" " hi " = [⟨"p", c, "", 0⟩] ∧
      ((∀ l ∈ splitNL (" hi " : String).data, byteLen l < maxScanTokenSize) →
        c = String.mk (goTrim (stripCRLF (" hi " : String).data)) ∧
        ('\r' ∉ (" hi " : String).data →
          c = String.mk (goTrim (" hi " : String).data)))) :=
  ⟨(chunkDocument_no_heading_spec "p" " hi ").1, by decide,
    (chunkDocument_no_heading_spec "p" " hi ").2 (by decide)⟩
/-! ## Loading the persisted index -/

/-- Counterexample for C5: loading an `EmbeddingData` with one chunk, no
embeddings, and declared dimension 3 succeeds — `LoadIndex` is a total
function with no error path — and yields a `VectorIndex` with the same
chunk/vector length mismatch, not a fatal load error. -/
theorem loadIndex_counterexample :
    LoadIndex ⟨[chunkOld], [], "m", 3⟩ = ⟨[chunkOld], [], 3⟩ ∧
    (LoadIndex ⟨[chunkOld], [], "m", 3⟩).Chunks.length = 1 ∧
    (LoadIndex ⟨[chunkOld], [], "m", 3⟩).Embeddings.length = 0 :=
  ⟨rfl, rfl, rfl⟩

/-- Claim C5 (amended): loading performs no validation at all — `LoadIndex`
copies the chunks, embeddings, and dimension of the decoded `EmbeddingData`
verbatim into the `VectorIndex`, whether or not they satisfy the
`len(chunks) == len(vectors)` and per-vector dimension invariants. -/
theorem loadIndex_copies_verbatim (d : EmbeddingData) :
    (LoadIndex d).Chunks = d.Chunks ∧
    (LoadIndex d).Embeddings = d.Embeddings ∧
    (LoadIndex d).Dimension = d.Dimension :=
  ⟨rfl, rfl, rfl⟩

/-! ## Checkpoint selection and resumption -/

/-- Counterexample for C3: a checkpoint whose stored chunk sequence differs
from the current run's — but has the same length and model info — is
resumed from, not discarded: `selectCheckpoint` keeps it, and with its
index 0 completed the work list is empty, so index 0 is skipped even
though the stored chunk differs from the current one. -/
theorem checkpoint_resume_ignores_chunk_content :
    selectCheckpoint (some staleCheckpoint) [chunkNew] "m" 1 = staleCheckpoint ∧
    staleCheckpoint.Chunks ≠ [chunkNew] ∧
    toProcess staleCheckpoint [chunkNew] = [] :=
  ⟨rfl, by decide, by decide⟩

/-- Claim C3 (amended): the pipeline resumes from an existing checkpoint
iff the checkpoint's chunk COUNT and its modelInfo both match the current
run's exactly (chunk contents are not compared); any difference in chunk
count or modelInfo causes a fresh start whose completed set is empty, so
no indices are skipped. -/
theorem selectCheckpoint_spec (ex : Checkpoint) (chunks : List Chunk)
    (mi : String) (dim : Int) :
    (ex.Chunks.length = chunks.length ∧ ex.ModelInfo = mi →
      selectCheckpoint (some ex) chunks mi dim = ex) ∧
    ((ex.Chunks.length ≠ chunks.length ∨ ex.ModelInfo ≠ mi) →
      selectCheckpoint (some ex) chunks mi dim = freshCheckpoint chunks mi dim ∧
      (freshCheckpoint chunks mi dim).Completed = (fun _ => false) ∧
      toProcess (freshCheckpoint chunks mi dim) chunks =
        List.range chunks.length) := by
  constructor
  · rintro ⟨h1, h2⟩
    simp [selectCheckpoint, checkpointMatches, h1, h2]
  · intro h
    have hm : checkpointMatches ex chunks mi = false := by
      rcases h with h | h <;> simp [checkpointMatches, h]
    refine ⟨by simp [selectCheckpoint, hm], rfl, ?_⟩
    simp [toProcess, freshCheckpoint]

/-- Witness for C3 (amended): a one-chunk checkpoint does not match a
two-chunk run, so the run starts fresh with every index pending. -/
theorem selectCheckpoint_spec_witness :
    (staleCheckpoint.Chunks.length ≠ ([chunkOld, chunkNew] : List Chunk).length ∨
      staleCheckpoint.ModelInfo ≠ "m") ∧
    (selectCheckpoint (some staleCheckpoint) [chunkOld, chunkNew] "m" 1 =
        freshCheckpoint [chunkOld, chunkNew] "m" 1 ∧
      (freshCheckpoint [chunkOld, chunkNew] "m" 1).Completed = (fun _ => false) ∧
      toProcess (freshCheckpoint [chunkOld, chunkNew] "m" 1) [chunkOld, chunkNew] =
        List.range ([chunkOld, chunkNew] : List Chunk).length) :=
  ⟨Or.inl (by decide),
    (selectCheckpoint_spec staleCheckpoint [chunkOld, chunkNew] "m" 1).2
      (Or.inl (by decide))⟩

theorem foldl_recordEmbedding_getElem (g : Nat → List ℝ) :
    ∀ (idxs : List Nat) (c : Checkpoint), idxs.Nodup →
      (∀ j ∈ idxs, j < c.Embeddings.length) →
      ∀ i : Nat,
        (idxs.foldl (fun cc idx => recordEmbedding cc idx (g idx)) c).Embeddings[i]? =
          if i ∈ idxs then some (g i) else c.Embeddings[i]? := by
  intro idxs
  induction idxs with
  | nil =>
    intro c _ _ i
    simp
  | cons j js ih =>
    intro c hnd hlt i
    have hnodup := List.nodup_cons.mp hnd
    have hlt' : ∀ k ∈ js, k < (recordEmbedding c j (g j)).Embeddings.length := by
      intro k hk
      simpa [recordEmbedding, List.length_set] using
        hlt k (List.mem_cons_of_mem _ hk)
    simp only [List.foldl_cons]
    rw [ih (recordEmbedding c j (g j)) hnodup.2 hlt' i]
    by_cases hij : i ∈ js
    · rw [if_pos hij, if_pos (List.mem_cons_of_mem _ hij)]
    · rw [if_neg hij]
      by_cases hije : i = j
      · subst hije
        rw [if_pos (List.mem_cons_self _ _)]
        have hilen : i < c.Embeddings.length := hlt i (List.mem_cons_self _ _)
        show (c.Embeddings.set i (g i))[i]? = some (g i)
        exact List.getElem?_set_self hilen
      · rw [if_neg (by simp [List.mem_cons, hije, hij])]
        show (c.Embeddings.set j (g j))[i]? = c.Embeddings[i]?
        exact List.getElem?_set_ne (Ne.symm hije)

/-- Claim C4: over a checkpoint with completed set `S` (and a full-length
embedding slice), the work list is exactly the indices below the chunk
count not in `S`, and the final assembled record holds, positionally for
every index, the checkpointed vector for indices in `S` — unchanged — and
the provider's embedding of the chunk's content for the rest. -/
theorem runPipeline_spec (cp : Checkpoint) (chunks : List Chunk)
    (embedFn : String → List ℝ)
    (hlen : cp.Embeddings.length = chunks.length) :
    (∀ i : Nat, i ∈ toProcess cp chunks ↔
      (i < chunks.length ∧ cp.Completed i = false)) ∧
    (∀ i : Nat, i < chunks.length →
      (assembleIndex (runPipeline cp chunks embedFn)).Embeddings[i]? =
        (if cp.Completed i then cp.Embeddings[i]?
         else some (embedFn (chunks.getD i default).Content))) := by
  have hmem : ∀ i : Nat, i ∈ toProcess cp chunks ↔
      (i < chunks.length ∧ cp.Completed i = false) := by
    intro i
    simp [toProcess, List.mem_filter, List.mem_range]
  refine ⟨hmem, ?_⟩
  intro i hi
  have hnd : (toProcess cp chunks).Nodup :=
    (List.nodup_range chunks.length).filter _
  have hlt : ∀ j ∈ toProcess cp chunks, j < cp.Embeddings.length := by
    intro j hj
    rcases (hmem j).mp hj with ⟨hj1, _⟩
    omega
  have hrp : (runPipeline cp chunks embedFn).Embeddings[i]? =
      if i ∈ toProcess cp chunks
      then some (embedFn (chunks.getD i default).Content)
      else cp.Embeddings[i]? :=
    foldl_recordEmbedding_getElem
      (fun idx => embedFn (chunks.getD idx default).Content)
      (toProcess cp chunks) cp hnd hlt i
  show (runPipeline cp chunks embedFn).Embeddings[i]? = _
  rw [hrp]
  by_cases hc : cp.Completed i
  · rw [if_neg (by simp [hmem, hc]), if_pos hc]
  · rw [if_pos ((hmem i).mpr ⟨hi, by simpa using hc⟩), if_neg hc]

/-- Witness for C4: a two-chunk checkpoint with index 0 completed keeps
its stored vector at index 0 and embeds only index 1. -/
theorem runPipeline_spec_witness :
    (halfDoneCheckpoint.Embeddings.length =
      ([chunkOld, chunkNew] : List Chunk).length) ∧
    ((∀ i : Nat, i ∈ toProcess halfDoneCheckpoint [chunkOld, chunkNew] ↔
        (i < ([chunkOld, chunkNew] : List Chunk).length ∧
          halfDoneCheckpoint.Completed i = false)) ∧
      (∀ i : Nat, i < ([chunkOld, chunkNew] : List Chunk).length →
        (assembleIndex (runPipeline halfDoneCheckpoint [chunkOld, chunkNew]
            fun _ => [2])).Embeddings[i]? =
          (if halfDoneCheckpoint.Completed i
           then halfDoneCheckpoint.Embeddings[i]?
           else some ((fun _ => ([2] : List ℝ))
             (([chunkOld, chunkNew] : List Chunk).getD i default).Content)))) :=
  ⟨rfl, runPipeline_spec halfDoneCheckpoint [chunkOld, chunkNew]
    (fun _ => [2]) rfl⟩

/-! ## The simple embedder is not L2-normalized -/

/-- Claim C6 (code bug): `SimpleEmbedder.Embed` scales the accumulated
vector by `1.0 / norm` where `norm` is the SUM OF SQUARES, not its square
root, so the result is not L2-normalized. For dimension 1 and the
non-empty text `"d"` (code point 100) the accumulated vector is `[1/10]`,
the sum of squares is `1/100`, and scaling by its reciprocal returns
`[10]`, whose sum of squares is `100`, not `1` — the Euclidean norm is
`10`, not `1` as the contract requires. -/
theorem simpleEmbed_not_unit_norm :
    ("d" : String) ≠ "" ∧
    simpleEmbed 1 "d" = [10] ∧
    sumSqQ (simpleEmbed 1 "d") = 100 ∧
    (100 : ℚ) ≠ 1 := by
  have hd : ("d" : String).data = ['d'] := rfl
  have h1 : simpleEmbedRaw 1 "d" = [(100 : ℚ)/1000] := by
    simp [simpleEmbedRaw, hd]
    norm_num
  have h2 : simpleEmbed 1 "d" = [10] := by
    simp [simpleEmbed, h1, sumSqQ]
    norm_num
  refine ⟨by decide, h2, ?_, by norm_num⟩
  rw [h2]
  simp [sumSqQ]
  norm_num

/-! ## The semaphore discipline caps in-flight embedding calls -/

theorem countP_set_eq (q : TaskPhase → Bool) :
    ∀ (s : List TaskPhase) (i : Nat) (p v : TaskPhase), s.get? i = some p →
      (s.set i v).countP q + (if q p then 1 else 0) =
        s.countP q + (if q v then 1 else 0) := by
  intro s
  induction s with
  | nil =>
    intro i p v h
    simp at h
  | cons a s ih =>
    intro i p v h
    cases i with
    | zero =>
      simp only [List.get?_cons_zero, Option.some_inj] at h
      subst h
      simp only [List.set_cons_zero, List.countP_cons]
      omega
    | succ j =>
      simp only [List.get?_cons_succ] at h
      have := ih j p v h
      simp only [List.set_cons_succ, List.countP_cons]
      omega

theorem tokensHeld_replicate_pending (n : Nat) :
    tokensHeld (List.replicate n .pending) = 0 := by
  induction n with
  | zero => rfl
  | succ k ihk =>
    simp [tokensHeld, List.replicate_succ, List.countP_cons, holdsToken, ihk]

theorem semStep_tokensHeld_le {s t : List TaskPhase} (hst : SemStep s t)
    (h : tokensHeld s ≤ 10) : tokensHeld t ≤ 10 := by
  cases hst with
  | acquire i hp hcap =>
    have hc := countP_set_eq holdsToken s i .pending .acquired hp
    simp [holdsToken] at hc
    unfold tokensHeld at *
    omega
  | enter i hp =>
    have hc := countP_set_eq holdsToken s i .acquired .inEmbed hp
    simp [holdsToken] at hc
    unfold tokensHeld at *
    omega
  | finish i hp =>
    have hc := countP_set_eq holdsToken s i .inEmbed .done hp
    simp [holdsToken] at hc
    unfold tokensHeld at *
    omega

theorem embedsInFlight_le_tokensHeld (s : List TaskPhase) :
    embedsInFlight s ≤ tokensHeld s := by
  induction s with
  | nil => simp [embedsInFlight, tokensHeld]
  | cons a s ih =>
    simp only [embedsInFlight, tokensHeld, List.countP_cons] at *
    cases a <;> simp [inEmbedCall, holdsToken] <;> omega

/-- Claim C9: in every state reachable by the semaphore discipline of the
concurrent embedding loops, at most 10 provider calls are in flight
simultaneously — a task must hold one of at most 10 tokens while inside
its `Embed` call, so the fan-out is bounded. -/
theorem semaphore_bounds_inflight (n : Nat) (s : List TaskPhase)
    (h : SemReachable n s) : embedsInFlight s ≤ 10 := by
  have ht : tokensHeld s ≤ 10 := by
    unfold SemReachable at h
    induction h with
    | refl =>
      rw [tokensHeld_replicate_pending]
      omega
    | tail _ hstep ih => exact semStep_tokensHeld_le hstep ih
  exact le_trans (embedsInFlight_le_tokensHeld s) ht

/-- Witness for C9: the state of a three-item batch after one task has
acquired a token is reachable, and its in-flight count is within the cap. -/
theorem semaphore_bounds_inflight_witness :
    SemReachable 3 ((List.replicate 3 TaskPhase.pending).set 0 .acquired) ∧
    embedsInFlight ((List.replicate 3 TaskPhase.pending).set 0 .acquired) ≤ 10 := by
  have hstep : SemStep (List.replicate 3 TaskPhase.pending)
      ((List.replicate 3 TaskPhase.pending).set 0 .acquired) :=
    SemStep.acquire _ 0 (by decide) (by decide)
  exact ⟨Relation.ReflTransGen.single hstep,
    semaphore_bounds_inflight 3 _ (Relation.ReflTransGen.single hstep)⟩


end Minirag
